import Mathlib

/-!
Shallow embedding of the AVL-tree core of `src/avl_tree.c` and proofs about
its specification.  Nodes carry a key (`data`), a stored height field, and
two optional children, mirroring `struct AVLNode`.  Machine `int` values are
modelled as `Int`; no arithmetic in the algorithm can overflow for any input
reachable by the claims considered here.
-/

/-- Embedding of `struct AVLNode`: `nil` is the null pointer, `node` carries
the `data`, `height`, `left` and `right` fields. -/
inductive AVLNode : Type where
  | nil : AVLNode
  | node (data : Int) (height : Int) (left : AVLNode) (right : AVLNode) : AVLNode
deriving DecidableEq, Repr

/-- Embedding of `get_avl_height`: 0 for a null pointer, else the stored
`height` field. -/
def getAvlHeight : AVLNode → Int
  | .nil => 0
  | .node _ h _ _ => h

/-- Embedding of `get_avl_balance`: stored left height minus stored right
height, 0 for a null pointer. -/
def getAvlBalance : AVLNode → Int
  | .nil => 0
  | .node _ _ l r => getAvlHeight l - getAvlHeight r

/-- Models the field access `p->data`.  In the C code this access only
happens on non-null pointers (guarded by the balance conditions); the value
on `nil` is an arbitrary total-function default and is never relied upon. -/
def keyOf : AVLNode → Int
  | .nil => 0
  | .node d _ _ _ => d

/-- Embedding of `right_rotate_avl`.  The C code dereferences `y->left`
unconditionally; its callers guarantee it is non-null, and the catch-all
branch (returning the argument unchanged) makes the Lean function total.
The new heights are computed exactly as in the source: the demoted node's
height first, from its new children, then the promoted node's height. -/
def rightRotateAvl : AVLNode → AVLNode
  | .node yd _ (.node xd _ xl t2) yr =>
      let yNew : AVLNode := .node yd (max (getAvlHeight t2) (getAvlHeight yr) + 1) t2 yr
      .node xd (max (getAvlHeight xl) (getAvlHeight yNew) + 1) xl yNew
  | t => t

/-- Embedding of `left_rotate_avl`, the mirror image of `right_rotate_avl`. -/
def leftRotateAvl : AVLNode → AVLNode
  | .node xd _ xl (.node yd _ t2 yr) =>
      let xNew : AVLNode := .node xd (max (getAvlHeight xl) (getAvlHeight t2) + 1) xl t2
      .node yd (max (getAvlHeight xNew) (getAvlHeight yr) + 1) xNew yr
  | t => t

/-- Embedding of the rebalancing tail of `insert_avl` (the four guarded
rotation cases after the height of `node` has been recomputed, lines
264-283 of `src/avl_tree.c`).  `d` is the inserted key. -/
def rebalanceAfterInsert (n : AVLNode) (d : Int) : AVLNode :=
  match n with
  | .nil => .nil
  | .node nd nh nl nr =>
      let balance := getAvlBalance (.node nd nh nl nr)
      if balance > 1 ∧ d < keyOf nl then rightRotateAvl (.node nd nh nl nr)
      else if balance < -1 ∧ d > keyOf nr then leftRotateAvl (.node nd nh nl nr)
      else if balance > 1 ∧ d > keyOf nl then
        rightRotateAvl (.node nd nh (leftRotateAvl nl) nr)
      else if balance < -1 ∧ d < keyOf nr then
        leftRotateAvl (.node nd nh nl (rightRotateAvl nr))
      else .node nd nh nl nr

/-- Embedding of `insert_avl` on the success path (every allocation
succeeds): route strictly smaller keys left, everything else right,
recompute the stored height from the children, then rebalance. -/
def insertAvl : AVLNode → Int → AVLNode
  | .nil, d => .node d 1 .nil .nil
  | .node nd _ nl nr, d =>
      if d < nd then
        let nl2 := insertAvl nl d
        rebalanceAfterInsert (.node nd (max (getAvlHeight nl2) (getAvlHeight nr) + 1) nl2 nr) d
      else
        let nr2 := insertAvl nr d
        rebalanceAfterInsert (.node nd (max (getAvlHeight nl) (getAvlHeight nr2) + 1) nl nr2) d

/-- Inserting a list of keys in order, threading the returned root, as the
driver loop in `main` does. -/
def insertAll (t : AVLNode) (ds : List Int) : AVLNode :=
  ds.foldl insertAvl t

/-- Actual height of a tree, recomputed bottom-up from scratch (an absent
child has height 0), independent of the stored `height` fields. -/
def realHeight : AVLNode → Int
  | .nil => 0
  | .node _ _ l r => max (realHeight l) (realHeight r) + 1

/-- In-order key sequence of a tree. -/
def keys : AVLNode → List Int
  | .nil => []
  | .node d _ l r => keys l ++ d :: keys r

/-- Embedding of `print_avl_sideways` as the sequence of (key, depth) pairs
it prints: right subtree first, then the node, then the left subtree, with
children one level deeper. -/
def renderSideways : AVLNode → Nat → List (Int × Nat)
  | .nil, _ => []
  | .node d _ l r, depth =>
      renderSideways r (depth + 1) ++ (d, depth) :: renderSideways l (depth + 1)

/-- The AVL balance condition on actual heights: at every node the heights
of the two subtrees (0 when absent) differ by at most 1. -/
def balancedAvl : AVLNode → Bool
  | .nil => true
  | .node _ _ l r =>
      decide ((realHeight l - realHeight r).natAbs ≤ 1) && balancedAvl l && balancedAvl r

/-- Height-correctness of the stored height fields: at every node the stored
height equals 1 + max of the children's actual heights. -/
def heightOk : AVLNode → Bool
  | .nil => true
  | .node _ h l r =>
      decide (h = max (realHeight l) (realHeight r) + 1) && heightOk l && heightOk r

/-- BST ordering with a strict left side, as claimed by the specification:
every key in the left subtree is strictly below the node's key and every key
in the right subtree is at least the node's key. -/
def bstStrictLeft : AVLNode → Bool
  | .nil => true
  | .node d _ l r =>
      (keys l).all (fun k => decide (k < d)) && (keys r).all (fun k => decide (d ≤ k)) &&
      bstStrictLeft l && bstStrictLeft r

/-- Weak BST ordering: every key in the left subtree is at most the node's
key and every key in the right subtree is at least the node's key. -/
def bstWeak : AVLNode → Bool
  | .nil => true
  | .node d _ l r =>
      (keys l).all (fun k => decide (k ≤ d)) && (keys r).all (fun k => decide (d ≤ k)) &&
      bstWeak l && bstWeak r

/-- Holds when no node of the tree has a left child (a pure right spine). -/
def noLeftChild : AVLNode → Bool
  | .nil => true
  | .node _ _ .nil r => noLeftChild r
  | .node _ _ (.node _ _ _ _) _ => false

/-- Right spine of `n` copies of key `k` with correctly stored heights. -/
def rspine (k : Int) : Nat → AVLNode
  | 0 => .nil
  | n + 1 => .node k ((n : Int) + 1) .nil (rspine k n)

/-- Embedding of `insert_avl` with the allocation outcome made explicit.
Each call performs at most one allocation (the `new_avl_node` call at the
bottom of the recursion); `ok` records whether it succeeds.  The first
component is the returned pointer (`none` is `NULL`), the second is the
subtree reachable from the caller's pre-call pointer after the call
returns.  As in the C code, a failed recursive call makes the function
return `NULL` before any child link or height field is reassigned. -/
def insertAvlF : AVLNode → Int → Bool → Option AVLNode × AVLNode
  | .nil, d, ok =>
      if ok then (some (.node d 1 .nil .nil), .nil) else (none, .nil)
  | .node nd nh nl nr, d, ok =>
      if d < nd then
        match insertAvlF nl d ok with
        | (none, nl2) => (none, .node nd nh nl2 nr)
        | (some t, _) =>
            let n := rebalanceAfterInsert
              (.node nd (max (getAvlHeight t) (getAvlHeight nr) + 1) t nr) d
            (some n, n)
      else
        match insertAvlF nr d ok with
        | (none, nr2) => (none, .node nd nh nl nr2)
        | (some t, _) =>
            let n := rebalanceAfterInsert
              (.node nd (max (getAvlHeight nl) (getAvlHeight t) + 1) nl t) d
            (some n, n)

theorem getAvlHeight_node (d h : Int) (l r : AVLNode) :
    getAvlHeight (.node d h l r) = h := rfl

theorem getAvlHeight_nil : getAvlHeight .nil = 0 := rfl

theorem keys_rightRotateAvl (t : AVLNode) : keys (rightRotateAvl t) = keys t := by
  match t with
  | .nil => rfl
  | .node yd yh .nil yr => rfl
  | .node yd yh (.node xd xh xl t2) yr =>
      simp [rightRotateAvl, keys, List.append_assoc]

theorem keys_leftRotateAvl (t : AVLNode) : keys (leftRotateAvl t) = keys t := by
  match t with
  | .nil => rfl
  | .node xd xh xl .nil => rfl
  | .node xd xh xl (.node yd yh t2 yr) =>
      simp [leftRotateAvl, keys, List.append_assoc]

theorem keys_rebalanceAfterInsert (nd nh : Int) (nl nr : AVLNode) (d : Int) :
    keys (rebalanceAfterInsert (.node nd nh nl nr) d) = keys (.node nd nh nl nr) := by
  simp only [rebalanceAfterInsert]
  split_ifs <;>
    simp [keys_rightRotateAvl, keys_leftRotateAvl, keys]

theorem realHeight_nonneg (t : AVLNode) : 0 ≤ realHeight t := by
  induction t with
  | nil => simp [realHeight]
  | node d h l r ihl ihr => simp [realHeight]; omega

theorem getAvlHeight_of_heightOk (t : AVLNode) (h : heightOk t = true) :
    getAvlHeight t = realHeight t := by
  match t with
  | .nil => rfl
  | .node d hh l r =>
      simp only [heightOk, Bool.and_eq_true, decide_eq_true_eq] at h
      simp [getAvlHeight, realHeight, h.1.1]

theorem heightOk_rightRotateAvl_node (yd yh xd xh : Int) (xl t2 yr : AVLNode)
    (h1 : heightOk xl = true) (h2 : heightOk t2 = true) (h3 : heightOk yr = true) :
    heightOk (rightRotateAvl (.node yd yh (.node xd xh xl t2) yr)) = true := by
  have e1 := getAvlHeight_of_heightOk xl h1
  have e2 := getAvlHeight_of_heightOk t2 h2
  have e3 := getAvlHeight_of_heightOk yr h3
  simp [rightRotateAvl, heightOk, realHeight, getAvlHeight_node, e1, e2, e3, h1, h2, h3]

theorem heightOk_leftRotateAvl_node (xd xh yd yh : Int) (xl t2 yr : AVLNode)
    (h1 : heightOk xl = true) (h2 : heightOk t2 = true) (h3 : heightOk yr = true) :
    heightOk (leftRotateAvl (.node xd xh xl (.node yd yh t2 yr))) = true := by
  have e1 := getAvlHeight_of_heightOk xl h1
  have e2 := getAvlHeight_of_heightOk t2 h2
  have e3 := getAvlHeight_of_heightOk yr h3
  simp [leftRotateAvl, heightOk, realHeight, getAvlHeight_node, e1, e2, e3, h1, h2, h3]

theorem heightOk_rightRotateAvl (t : AVLNode) (h : heightOk t = true) :
    heightOk (rightRotateAvl t) = true := by
  match t with
  | .nil => exact h
  | .node yd yh .nil yr => simpa [rightRotateAvl] using h
  | .node yd yh (.node xd xh xl t2) yr =>
      simp only [heightOk, Bool.and_eq_true] at h
      exact heightOk_rightRotateAvl_node yd yh xd xh xl t2 yr h.1.2.1.2 h.1.2.2 h.2

theorem heightOk_leftRotateAvl (t : AVLNode) (h : heightOk t = true) :
    heightOk (leftRotateAvl t) = true := by
  match t with
  | .nil => exact h
  | .node xd xh xl .nil => simpa [leftRotateAvl] using h
  | .node xd xh xl (.node yd yh t2 yr) =>
      simp only [heightOk, Bool.and_eq_true] at h
      exact heightOk_leftRotateAvl_node xd xh yd yh xl t2 yr h.1.2 h.2.1.2 h.2.2

theorem leftRotateAvl_ne_nil (t : AVLNode) (h : t ≠ .nil) : leftRotateAvl t ≠ .nil := by
  match t with
  | .nil => exact absurd rfl h
  | .node xd xh xl .nil => simp [leftRotateAvl]
  | .node xd xh xl (.node yd yh t2 yr) => simp [leftRotateAvl]

theorem rightRotateAvl_ne_nil (t : AVLNode) (h : t ≠ .nil) : rightRotateAvl t ≠ .nil := by
  match t with
  | .nil => exact absurd rfl h
  | .node yd yh .nil yr => simp [rightRotateAvl]
  | .node yd yh (.node xd xh xl t2) yr => simp [rightRotateAvl]

theorem heightOk_rightRotateAvl_stale (nd nh : Int) (l r : AVLNode)
    (hl : heightOk l = true) (hr : heightOk r = true)
    (hnil : l = .nil → nh = max (realHeight l) (realHeight r) + 1) :
    heightOk (rightRotateAvl (.node nd nh l r)) = true := by
  match l with
  | .nil =>
      simp [rightRotateAvl, heightOk, hr, hnil rfl, realHeight]
  | .node xd xh xl t2 =>
      simp only [heightOk, Bool.and_eq_true] at hl
      exact heightOk_rightRotateAvl_node nd nh xd xh xl t2 r hl.1.2 hl.2 hr

theorem heightOk_leftRotateAvl_stale (nd nh : Int) (l r : AVLNode)
    (hl : heightOk l = true) (hr : heightOk r = true)
    (hnil : r = .nil → nh = max (realHeight l) (realHeight r) + 1) :
    heightOk (leftRotateAvl (.node nd nh l r)) = true := by
  match r with
  | .nil =>
      simp [leftRotateAvl, heightOk, hl, hnil rfl, realHeight]
  | .node yd yh t2 yr =>
      simp only [heightOk, Bool.and_eq_true] at hr
      exact heightOk_leftRotateAvl_node nd nh yd yh l t2 yr hl hr.1.2 hr.2

theorem heightOk_rebalanceAfterInsert (nd nh : Int) (nl nr : AVLNode) (d : Int)
    (h : heightOk (.node nd nh nl nr) = true) :
    heightOk (rebalanceAfterInsert (.node nd nh nl nr) d) = true := by
  have hcomp := h
  simp only [heightOk, Bool.and_eq_true, decide_eq_true_eq] at hcomp
  obtain ⟨⟨hh, hl⟩, hr⟩ := hcomp
  simp only [rebalanceAfterInsert]
  split_ifs with h1 h2 h3 h4
  · exact heightOk_rightRotateAvl _ h
  · exact heightOk_leftRotateAvl _ h
  · refine heightOk_rightRotateAvl_stale nd nh (leftRotateAvl nl) nr
      (heightOk_leftRotateAvl nl hl) hr ?_
    intro hln
    rcases em (nl = .nil) with hn | hn
    · subst hn; simpa [realHeight] using hh
    · exact absurd hln (leftRotateAvl_ne_nil nl hn)
  · refine heightOk_leftRotateAvl_stale nd nh nl (rightRotateAvl nr)
      hl (heightOk_rightRotateAvl nr hr) ?_
    intro hrn
    rcases em (nr = .nil) with hn | hn
    · subst hn; simpa [realHeight] using hh
    · exact absurd hrn (rightRotateAvl_ne_nil nr hn)
  · exact h

theorem heightOk_insertAvl (t : AVLNode) (d : Int) (h : heightOk t = true) :
    heightOk (insertAvl t d) = true := by
  induction t with
  | nil => simp [insertAvl, heightOk, realHeight]
  | node nd nh nl nr ihl ihr =>
      simp only [heightOk, Bool.and_eq_true, decide_eq_true_eq] at h
      obtain ⟨⟨hh, hl⟩, hr⟩ := h
      simp only [insertAvl]
      split_ifs with hd
      · have h2 := ihl hl
        apply heightOk_rebalanceAfterInsert
        simp [heightOk, getAvlHeight_of_heightOk _ h2, getAvlHeight_of_heightOk nr hr, h2, hr]
      · have h2 := ihr hr
        apply heightOk_rebalanceAfterInsert
        simp [heightOk, getAvlHeight_of_heightOk _ h2, getAvlHeight_of_heightOk nl hl, h2, hl]

theorem insertAll_cons (t : AVLNode) (d : Int) (ds : List Int) :
    insertAll t (d :: ds) = insertAll (insertAvl t d) ds := rfl

theorem heightOk_insertAll (ds : List Int) (t : AVLNode) (h : heightOk t = true) :
    heightOk (insertAll t ds) = true := by
  induction ds generalizing t with
  | nil => exact h
  | cons d ds ih => rw [insertAll_cons]; exact ih _ (heightOk_insertAvl t d h)

theorem keys_insertAvl_perm (t : AVLNode) (d : Int) :
    (keys (insertAvl t d)).Perm (d :: keys t) := by
  induction t with
  | nil => simp [insertAvl, keys]
  | node nd nh nl nr ihl ihr =>
      simp only [insertAvl]
      split_ifs with hd
      · rw [keys_rebalanceAfterInsert]
        simp only [keys]
        exact ihl.append_right _
      · rw [keys_rebalanceAfterInsert]
        simp only [keys]
        have p1 : (keys nl ++ nd :: keys (insertAvl nr d)).Perm
            (keys nl ++ nd :: d :: keys nr) := (ihr.cons nd).append_left (keys nl)
        have p2 : (keys nl ++ nd :: d :: keys nr).Perm
            (keys nl ++ d :: nd :: keys nr) :=
          (List.Perm.swap d nd (keys nr)).append_left (keys nl)
        have p3 : (keys nl ++ d :: nd :: keys nr).Perm
            (d :: (keys nl ++ nd :: keys nr)) := List.perm_middle
        exact (p1.trans p2).trans p3

theorem mem_keys_insertAvl (k : Int) (t : AVLNode) (d : Int) :
    k ∈ keys (insertAvl t d) ↔ k = d ∨ k ∈ keys t := by
  rw [(keys_insertAvl_perm t d).mem_iff]
  simp

theorem bstWeak_node_iff (d h : Int) (l r : AVLNode) :
    bstWeak (.node d h l r) = true ↔
      ((∀ k ∈ keys l, k ≤ d) ∧ (∀ k ∈ keys r, d ≤ k) ∧
        bstWeak l = true ∧ bstWeak r = true) := by
  simp [bstWeak, List.all_eq_true, and_assoc]

theorem bstWeak_rightRotateAvl (t : AVLNode) (h : bstWeak t = true) :
    bstWeak (rightRotateAvl t) = true := by
  match t with
  | .nil => exact h
  | .node yd yh .nil yr => exact h
  | .node yd yh (.node xd xh xl t2) yr =>
      rw [bstWeak_node_iff] at h
      obtain ⟨hL, hR, hx, hyr⟩ := h
      rw [bstWeak_node_iff] at hx
      obtain ⟨hxl, hxt2, wxl, wt2⟩ := hx
      have hxdyd : xd ≤ yd :=
        hL xd (List.mem_append.2 (Or.inr (List.mem_cons.2 (Or.inl rfl))))
      show bstWeak (.node xd _ xl (.node yd _ t2 yr)) = true
      rw [bstWeak_node_iff]
      refine ⟨hxl, ?_, wxl, ?_⟩
      · intro k hk
        rcases List.mem_append.1 hk with hk | hk
        · exact hxt2 k hk
        · rcases List.mem_cons.1 hk with rfl | hk
          · exact hxdyd
          · exact le_trans hxdyd (hR k hk)
      · rw [bstWeak_node_iff]
        refine ⟨?_, hR, wt2, hyr⟩
        intro k hk
        exact hL k (List.mem_append.2 (Or.inr (List.mem_cons.2 (Or.inr hk))))

theorem bstWeak_leftRotateAvl (t : AVLNode) (h : bstWeak t = true) :
    bstWeak (leftRotateAvl t) = true := by
  match t with
  | .nil => exact h
  | .node xd xh xl .nil => exact h
  | .node xd xh xl (.node yd yh t2 yr) =>
      rw [bstWeak_node_iff] at h
      obtain ⟨hL, hR, wxl, hy⟩ := h
      rw [bstWeak_node_iff] at hy
      obtain ⟨hyt2, hyyr, wt2, wyr⟩ := hy
      have hxdyd : xd ≤ yd :=
        hR yd (List.mem_append.2 (Or.inr (List.mem_cons.2 (Or.inl rfl))))
      show bstWeak (.node yd _ (.node xd _ xl t2) yr) = true
      rw [bstWeak_node_iff]
      refine ⟨?_, hyyr, ?_, wyr⟩
      · intro k hk
        rcases List.mem_append.1 hk with hk | hk
        · exact le_trans (hL k hk) hxdyd
        · rcases List.mem_cons.1 hk with rfl | hk
          · exact hxdyd
          · exact hyt2 k hk
      · rw [bstWeak_node_iff]
        refine ⟨hL, ?_, wxl, wt2⟩
        intro k hk
        exact hR k (List.mem_append.2 (Or.inl hk))

theorem bstWeak_rebalanceAfterInsert (nd nh : Int) (nl nr : AVLNode) (d : Int)
    (h : bstWeak (.node nd nh nl nr) = true) :
    bstWeak (rebalanceAfterInsert (.node nd nh nl nr) d) = true := by
  simp only [rebalanceAfterInsert]
  split_ifs with h1 h2 h3 h4
  · exact bstWeak_rightRotateAvl _ h
  · exact bstWeak_leftRotateAvl _ h
  · apply bstWeak_rightRotateAvl
    rw [bstWeak_node_iff] at h ⊢
    obtain ⟨hL, hR, wl, wr⟩ := h
    exact ⟨by rw [keys_leftRotateAvl]; exact hL, hR, bstWeak_leftRotateAvl nl wl, wr⟩
  · apply bstWeak_leftRotateAvl
    rw [bstWeak_node_iff] at h ⊢
    obtain ⟨hL, hR, wl, wr⟩ := h
    exact ⟨hL, by rw [keys_rightRotateAvl]; exact hR, wl, bstWeak_rightRotateAvl nr wr⟩
  · exact h

theorem bstWeak_insertAvl (t : AVLNode) (d : Int) (h : bstWeak t = true) :
    bstWeak (insertAvl t d) = true := by
  induction t with
  | nil => simp [insertAvl, bstWeak, keys]
  | node nd nh nl nr ihl ihr =>
      rw [bstWeak_node_iff] at h
      obtain ⟨hL, hR, wl, wr⟩ := h
      simp only [insertAvl]
      split_ifs with hd
      · apply bstWeak_rebalanceAfterInsert
        rw [bstWeak_node_iff]
        refine ⟨?_, hR, ihl wl, wr⟩
        intro k hk
        rcases (mem_keys_insertAvl k nl d).1 hk with rfl | hk
        · omega
        · exact hL k hk
      · apply bstWeak_rebalanceAfterInsert
        rw [bstWeak_node_iff]
        refine ⟨hL, ?_, wl, ihr wr⟩
        intro k hk
        rcases (mem_keys_insertAvl k nr d).1 hk with rfl | hk
        · omega
        · exact hR k hk

theorem bstWeak_insertAll (ds : List Int) (t : AVLNode) (h : bstWeak t = true) :
    bstWeak (insertAll t ds) = true := by
  induction ds generalizing t with
  | nil => exact h
  | cons d ds ih => rw [insertAll_cons]; exact ih _ (bstWeak_insertAvl t d h)

theorem keys_insertAll_perm (ds : List Int) (t : AVLNode) :
    (keys (insertAll t ds)).Perm (ds ++ keys t) := by
  induction ds generalizing t with
  | nil => simp [insertAll]
  | cons d ds ih =>
      rw [insertAll_cons]
      have p1 := ih (insertAvl t d)
      have p2 : (ds ++ keys (insertAvl t d)).Perm (ds ++ (d :: keys t)) :=
        (keys_insertAvl_perm t d).append_left ds
      have p3 : (ds ++ d :: keys t).Perm (d :: (ds ++ keys t)) := List.perm_middle
      exact (p1.trans p2).trans p3

theorem keyOf_rspine (k : Int) (n : Nat) : keyOf (rspine k (n + 1)) = k := rfl

theorem getAvlHeight_rspine (k : Int) (n : Nat) :
    getAvlHeight (rspine k n) = (n : Int) := by
  cases n with
  | zero => simp [rspine, getAvlHeight]
  | succ n => simp [rspine, getAvlHeight_node]

theorem insertAvl_rspine (k : Int) (n : Nat) :
    insertAvl (rspine k n) k = rspine k (n + 1) := by
  induction n with
  | zero => simp [rspine, insertAvl]
  | succ n ih =>
      rw [show rspine k (n + 1) = AVLNode.node k ((n : Int) + 1) .nil (rspine k n) from rfl]
      simp only [insertAvl]
      rw [if_neg (lt_irrefl k), ih]
      rw [show getAvlHeight (AVLNode.nil) = 0 from rfl, getAvlHeight_rspine,
        max_eq_right (by positivity : (0 : Int) ≤ ((n + 1 : Nat) : Int))]
      simp only [rebalanceAfterInsert]
      split_ifs with h1 h2 h3 h4
      · exfalso
        obtain ⟨h, -⟩ := h1
        simp only [getAvlBalance, getAvlHeight_node, getAvlHeight_nil, getAvlHeight_rspine] at h
        omega
      · exfalso
        obtain ⟨-, h⟩ := h2
        rw [keyOf_rspine] at h
        omega
      · exfalso
        obtain ⟨h, -⟩ := h3
        simp only [getAvlBalance, getAvlHeight_node, getAvlHeight_nil, getAvlHeight_rspine] at h
        omega
      · exfalso
        obtain ⟨-, h⟩ := h4
        rw [keyOf_rspine] at h
        omega
      · rfl

theorem insertAll_rspine (k : Int) (m j : Nat) :
    insertAll (rspine k m) (List.replicate j k) = rspine k (m + j) := by
  induction j generalizing m with
  | zero => simp [insertAll]
  | succ j ih =>
      rw [List.replicate_succ, insertAll_cons, insertAvl_rspine, ih]
      congr 1
      omega

theorem noLeftChild_rspine (k : Int) (n : Nat) : noLeftChild (rspine k n) = true := by
  induction n with
  | zero => rfl
  | succ n ih => simpa [rspine, noLeftChild] using ih

theorem realHeight_rspine (k : Int) (n : Nat) : realHeight (rspine k n) = (n : Int) := by
  induction n with
  | zero => simp [rspine, realHeight]
  | succ n ih =>
      simp only [rspine, realHeight, ih]
      omega

theorem insertAvlF_alloc_fail_aux (t : AVLNode) (d : Int) :
    insertAvlF t d false = (none, t) := by
  induction t with
  | nil => simp only [insertAvlF]; simp
  | node nd nh nl nr ihl ihr =>
      simp only [insertAvlF]
      split_ifs with hd
      · rw [ihl]
      · rw [ihr]

theorem insertAvlF_alloc_ok (t : AVLNode) (d : Int) :
    (insertAvlF t d true).1 = some (insertAvl t d) := by
  induction t with
  | nil => rfl
  | node nd nh nl nr ihl ihr =>
      simp only [insertAvlF, insertAvl]
      split_ifs with hd
      · rcases e : insertAvlF nl d true with ⟨o, s⟩
        rw [e] at ihl
        simp only at ihl
        subst ihl
        rfl
      · rcases e : insertAvlF nr d true with ⟨o, s⟩
        rw [e] at ihr
        simp only at ihr
        subst ihr
        rfl

/-- Intermediate left subtree arising while inserting the keys 5, 3, 3: a
node with key 3 whose right child also has key 3. -/
def lrTieChild : AVLNode := .node 3 2 .nil (.node 3 1 .nil .nil)

/-- Tree produced by inserting 5, 3, 3 into the empty tree: at the root the
balance factor is 2 and the inserted key 3 equals the left child's key, yet
no rotation is performed because the guards compare strictly. -/
def lrTieTree : AVLNode := .node 5 3 lrTieChild .nil

/-- Claim C1 (code bug evidence): inserting the duplicate keys 0, 0, 0
leaves a node (the root) whose subtree heights differ by 2, violating the
AVL balance invariant the code is meant to maintain. -/
theorem balance_invariant_fails_on_duplicate_keys :
    balancedAvl (insertAll .nil [0, 0, 0]) = false := by decide

/-- Claim C2 (counterexample): inserting the 11 keys 10, 3, 10, 2, 1, -100,
4, 95, 3, 489, 78 does not produce the reversed in-order (key, depth)
sequence stated by the specification; the spec misreads the program's first
command-line argument (the array size 10) as an inserted key and
mistranscribes the depths of the rendered diagram. -/
theorem scenario_render_ne_spec_list :
    renderSideways (insertAll .nil [10, 3, 10, 2, 1, -100, 4, 95, 3, 489, 78]) 0 ≠
      [(489, 2), (95, 1), (78, 2), (10, 0), (4, 1), (3, 2), (3, 0), (2, 1), (1, 2),
        (-100, 3)] := by decide

/-- Claim C2 (amended): inserting the keys 10, 3, 10, 2, 1, -100, 4, 95, 3,
489, 78 in that order produces a tree whose reversed in-order (key, depth)
sequence, root at depth 0, is (489,2) (95,1) (78,3) (10,2) (10,0) (4,3)
(3,2) (3,3) (2,1) (1,2) (-100,3). -/
theorem scenario_render_actual :
    renderSideways (insertAll .nil [10, 3, 10, 2, 1, -100, 4, 95, 3, 489, 78]) 0 =
      [(489, 2), (95, 1), (78, 3), (10, 2), (10, 0), (4, 3), (3, 2), (3, 3), (2, 1),
        (1, 2), (-100, 3)] := by decide

/-- Claim C3 (counterexample): after inserting 5, 3, 3 the root frame of
`insert_avl` has balance factor 2 with the inserted key 3 equal to (hence
`>=`) the left child's key, yet the tree is returned without the
Left-Right double rotation the claim prescribes: the guards compare with
strict inequalities. -/
theorem lr_case_guard_tie_no_rotation :
    insertAll .nil [5, 3, 3] = lrTieTree ∧
    getAvlBalance lrTieTree > 1 ∧ (3 : Int) ≥ keyOf lrTieChild ∧
    rebalanceAfterInsert lrTieTree 3 ≠
      rightRotateAvl (.node 5 3 (leftRotateAvl lrTieChild) .nil) ∧
    rebalanceAfterInsert lrTieTree 3 = lrTieTree := by decide

/-- Claim C3 (amended): in `insert_avl`, after the recursive insertion and
height recomputation at a node, if the balance factor is greater than 1 and
the inserted key is strictly greater than the left child's key, the left
child is left-rotated and then the node is right-rotated; symmetrically, if
the balance factor is less than -1 and the inserted key is strictly smaller
than the right child's key, the right child is right-rotated and then the
node is left-rotated.  Ties with the child's key fall through to no
rotation. -/
theorem lr_rl_cases_strict_guards (nd nh d : Int) (nl nr : AVLNode) :
    (getAvlBalance (.node nd nh nl nr) > 1 → d > keyOf nl →
      rebalanceAfterInsert (.node nd nh nl nr) d =
        rightRotateAvl (.node nd nh (leftRotateAvl nl) nr)) ∧
    (getAvlBalance (.node nd nh nl nr) < -1 → d < keyOf nr →
      rebalanceAfterInsert (.node nd nh nl nr) d =
        leftRotateAvl (.node nd nh nl (rightRotateAvl nr))) := by
  constructor
  · intro hb hk
    simp only [rebalanceAfterInsert]
    split_ifs with h1 h2 h3 h4
    · obtain ⟨-, h⟩ := h1; omega
    · obtain ⟨h, -⟩ := h2; omega
    · rfl
    · exact absurd ⟨hb, hk⟩ h3
    · exact absurd ⟨hb, hk⟩ h3
  · intro hb hk
    simp only [rebalanceAfterInsert]
    split_ifs with h1 h2 h3 h4
    · obtain ⟨h, -⟩ := h1; omega
    · obtain ⟨-, h⟩ := h2; omega
    · obtain ⟨h, -⟩ := h3; omega
    · rfl
    · exact absurd ⟨hb, hk⟩ h4

/-- Claim C3 (witness): the amended rotation cases fire at concrete
left-right- and right-left-heavy trees. -/
theorem lr_rl_cases_strict_guards_witness :
    rebalanceAfterInsert (.node 5 3 (.node 3 2 .nil (.node 4 1 .nil .nil)) .nil) 4 =
      rightRotateAvl (.node 5 3 (leftRotateAvl (.node 3 2 .nil (.node 4 1 .nil .nil))) .nil) ∧
    rebalanceAfterInsert (.node 3 3 .nil (.node 5 2 (.node 4 1 .nil .nil) .nil)) 4 =
      leftRotateAvl (.node 3 3 .nil (rightRotateAvl (.node 5 2 (.node 4 1 .nil .nil) .nil))) :=
  ⟨(lr_rl_cases_strict_guards 5 3 4 (.node 3 2 .nil (.node 4 1 .nil .nil)) .nil).1
      (by decide) (by decide),
    (lr_rl_cases_strict_guards 3 3 4 .nil (.node 5 2 (.node 4 1 .nil .nil) .nil)).2
      (by decide) (by decide)⟩

/-- Claim C4 (code bug evidence): after inserting the n = 3 duplicate keys
0, 0, 0 the tree has height 3, which exceeds the claimed AVL bound
1.44 * log2(n + 1) = 2.88. -/
theorem height_bound_fails_on_duplicate_keys :
    realHeight (insertAll .nil [0, 0, 0]) = 3 ∧
    (1.44 : ℝ) * Real.logb 2 (3 + 1) < ((realHeight (insertAll .nil [0, 0, 0]) : Int) : ℝ) := by
  have h3 : realHeight (insertAll .nil [0, 0, 0]) = 3 := by decide
  refine ⟨h3, ?_⟩
  rw [h3]
  rw [show ((3 : ℝ) + 1) = 2 ^ (2 : ℕ) by norm_num, Real.logb_pow,
    Real.logb_self_eq_one (by norm_num : (1 : ℝ) < 2)]
  norm_num

/-- Claim C5 (counterexample): inserting 0, 0, 5 left-rotates the root and
moves a duplicate key 0 into the left subtree of the new root with key 0,
so the strict form of the BST invariant (left keys strictly below the
node's key) fails. -/
theorem strict_bst_fails_after_left_rotation :
    bstStrictLeft (insertAll .nil [0, 0, 5]) = false := by decide

/-- Claim C5 (amended): for every sequence of inserted keys, every node N
of the resulting tree satisfies the weak BST ordering: all keys in N's left
subtree are at most N.key and all keys in N's right subtree are at least
N.key.  (Insertion routes ties to the right, but rotations can move a key
equal to the new subtree root into its left subtree.) -/
theorem weak_bst_invariant_all_inserts (ds : List Int) :
    bstWeak (insertAll .nil ds) = true :=
  bstWeak_insertAll ds .nil rfl

/-- Claim C6: after any sequence of insertions into the empty tree, every
stored height field equals 1 + max of the children's recomputed heights,
with absent children of height 0; recomputing heights from scratch agrees
with the incrementally stored values. -/
theorem stored_heights_always_correct (ds : List Int) :
    heightOk (insertAll .nil ds) = true :=
  heightOk_insertAll ds .nil rfl

/-- Claim C7: for every sequence of inserted keys, the multiset of keys in
the final tree is exactly the multiset of inserted keys: rotations and
recursive reattachment neither lose nor duplicate keys. -/
theorem keys_multiset_preserved (ds : List Int) :
    (keys (insertAll .nil ds) : Multiset Int) = (ds : Multiset Int) := by
  have h := keys_insertAll_perm ds .nil
  exact Multiset.coe_eq_coe.mpr (by simpa [keys] using h)

/-- Claim C8: when the single node allocation of an `insert_avl` call
fails, the call returns the failure indicator NULL and the tree reachable
from the pre-call root is exactly the pre-call tree: no child link, height
field, or rotation is applied on the failure path. -/
theorem alloc_failure_leaves_tree_unchanged (t : AVLNode) (d : Int) :
    insertAvlF t d false = (none, t) :=
  insertAvlF_alloc_fail_aux t d

/-- Claim C9: right rotation of a node y with left child x returns x, whose
right child is the old y with its left child replaced by x's old right
subtree; y's height is recomputed before x's, each as 1 + max of the
(possibly absent) children's heights; and the in-order key sequence is
unchanged, so BST ordering is preserved.  Left rotation is the exact
mirror. -/
theorem rotation_structure_and_inorder (yd yh xd xh : Int) (xl t2 yr : AVLNode) :
    (rightRotateAvl (.node yd yh (.node xd xh xl t2) yr) =
        .node xd
          (max (getAvlHeight xl)
            (getAvlHeight (AVLNode.node yd (max (getAvlHeight t2) (getAvlHeight yr) + 1) t2 yr)) + 1)
          xl (.node yd (max (getAvlHeight t2) (getAvlHeight yr) + 1) t2 yr) ∧
      keys (rightRotateAvl (.node yd yh (.node xd xh xl t2) yr)) =
        keys (.node yd yh (.node xd xh xl t2) yr)) ∧
    (leftRotateAvl (.node xd xh xl (.node yd yh t2 yr)) =
        .node yd
          (max (getAvlHeight (AVLNode.node xd (max (getAvlHeight xl) (getAvlHeight t2) + 1) xl t2))
            (getAvlHeight yr) + 1)
          (.node xd (max (getAvlHeight xl) (getAvlHeight t2) + 1) xl t2) yr ∧
      keys (leftRotateAvl (.node xd xh xl (.node yd yh t2 yr))) =
        keys (.node xd xh xl (.node yd yh t2 yr))) :=
  ⟨⟨rfl, keys_rightRotateAvl _⟩, ⟨rfl, keys_leftRotateAvl _⟩⟩

/-- Claim C10: inserting n copies of the same key k (n at least 1) into the
empty tree yields a pure right spine with no rotation performed: no node
has a left child and the height is exactly n, because equal keys always
route right and none of the four strict rebalancing guards can fire. -/
theorem duplicate_inserts_make_right_spine (n : Nat) (k : Int) (_h : 1 ≤ n) :
    insertAll .nil (List.replicate n k) = rspine k n ∧
    noLeftChild (insertAll .nil (List.replicate n k)) = true ∧
    realHeight (insertAll .nil (List.replicate n k)) = (n : Int) := by
  have e : insertAll .nil (List.replicate n k) = rspine k n := by
    have h0 := insertAll_rspine k 0 n
    simpa [rspine] using h0
  refine ⟨e, ?_, ?_⟩
  · rw [e]; exact noLeftChild_rspine k n
  · rw [e]; exact realHeight_rspine k n

/-- Claim C10 (witness): three copies of the key 7. -/
theorem duplicate_inserts_make_right_spine_witness :
    insertAll .nil (List.replicate 3 (7 : Int)) = rspine 7 3 ∧
    noLeftChild (insertAll .nil (List.replicate 3 (7 : Int))) = true ∧
    realHeight (insertAll .nil (List.replicate 3 (7 : Int))) = ((3 : Nat) : Int) :=
  duplicate_inserts_make_right_spine 3 7 (by decide)
